import Mathlib

/-!
Verification of the random-grouping program.

The program assigns participants to groups of a minimum size, penalizing
repeated pairings recorded in a symmetric history matrix.  This file embeds
the core functions of `randomgroups/algorithm.py` and
`randomgroups/create_matching.py` (both the current variant under
`src/randomgroups` and the older variant) as Lean definitions and proves
properties about them.

Modelling conventions:
- a history matrix indexed by positions `0, …, n-1` is a pair of a size
  `n : ℕ` and a function `M : ℕ → ℕ → ℕ`;
- penalty functions map `ℕ` to an arbitrary (ordered) semiring `R`, so that
  definitions stay executable (they are instantiated with `ℝ` and `Real.exp`
  where the spec speaks about the default exponential penalty);
- the numpy random generator is modelled as an abstract stream of shuffles,
  one per draw; theorems assume only that each shuffle permutes its input.
-/

/-- The strictly-lower-triangular entries of an `n × n` matrix, row-major,
as produced by `values[np.tril_indices(len(values), k=-1)]`. -/
def trilEntries (n : ℕ) (M : ℕ → ℕ → ℕ) : List ℕ :=
  (List.range n).flatMap (fun i => (List.range i).map (fun j => M i j))

/-- All cells of `np.tril(values).flatten()`: the full `n × n` matrix with the
entries strictly above the diagonal replaced by zero, row-major. -/
def trilFull (n : ℕ) (M : ℕ → ℕ → ℕ) : List ℕ :=
  (List.range n).flatMap
    (fun i => (List.range n).map (fun j => if j ≤ i then M i j else 0))

/-- `foldr max 0`, the maximum of a list of naturals (`0` on the empty list). -/
def listMax (l : List ℕ) : ℕ := l.foldr max 0

/-- `np.bincount`: for a nonempty list of naturals, the list
`[count 0, count 1, …, count (max l)]`; the empty list for an empty input. -/
def bincount (l : List ℕ) : List ℕ :=
  if l = [] then []
  else (List.range (listMax l + 1)).map (fun v => l.count v)

/-- `_compute_history_score` from `src/randomgroups/algorithm.py`: bincount of
the strictly-lower-triangular entries, dotted with the penalty applied to
`np.arange(len(counts))`. -/
def compute_history_score {R : Type} [Semiring R]
    (n : ℕ) (M : ℕ → ℕ → ℕ) (p : ℕ → R) : R :=
  let counts := bincount (trilEntries n M)
  ((List.range counts.length).map (fun v => ((counts.getD v 0 : ℕ) : R) * p v)).sum

/-- `_compute_history_score` from the older `randomgroups/algorithm.py`:
identical except that it bincounts `np.tril(values).flatten()`, i.e. all
`n²` cells with the strict upper triangle zeroed. -/
def compute_history_score_old {R : Type} [Semiring R]
    (n : ℕ) (M : ℕ → ℕ → ℕ) (p : ℕ → R) : R :=
  let counts := bincount (trilFull n M)
  ((List.range counts.length).map (fun v => ((counts.getD v 0 : ℕ) : R) * p v)).sum

section ScoreLemmas

variable {R : Type} [Semiring R]

theorem sum_map_range (f : ℕ → R) (n : ℕ) :
    ((List.range n).map f).sum = ∑ i ∈ Finset.range n, f i := by
  induction n with
  | zero => simp
  | succ n ih => simp [List.range_succ, Finset.sum_range_succ, ih]

theorem mem_lt_listMax_succ {l : List ℕ} {x : ℕ} (hx : x ∈ l) :
    x < listMax l + 1 := by
  have : x ≤ listMax l := by
    induction l with
    | nil => cases hx
    | cons a t ih =>
      rcases List.mem_cons.mp hx with h | h
      · subst h; exact le_max_left _ _
      · exact le_trans (ih h) (le_max_right _ _)
  omega

/-- The bincount-dot-penalty score of a list of values is just the sum of the
penalty over the values. -/
theorem bincount_score_eq_sum_map (l : List ℕ) (p : ℕ → R) :
    ((List.range (bincount l).length).map
      (fun v => (((bincount l).getD v 0 : ℕ) : R) * p v)).sum = (l.map p).sum := by
  by_cases hl : l = []
  · subst hl; simp [bincount]
  · have hlen : (bincount l).length = listMax l + 1 := by
      simp [bincount, hl]
    have hget : ∀ v < listMax l + 1, (bincount l).getD v 0 = l.count v := by
      intro v hv
      simp [bincount, hl, List.getD_eq_getElem?_getD, hv]
    rw [sum_map_range]
    rw [hlen]
    have hcongr :
        ∑ v ∈ Finset.range (listMax l + 1), (((bincount l).getD v 0 : ℕ) : R) * p v
          = ∑ v ∈ Finset.range (listMax l + 1), ((l.count v : ℕ) : R) * p v := by
      refine Finset.sum_congr rfl ?_
      intro v hv
      rw [hget v (Finset.mem_range.mp hv)]
    rw [hcongr]
    rw [hlen] at *
    -- now: ∑ v ∈ range (max+1), count v * p v = (l.map p).sum
    induction l with
    | nil => simp
    | cons a t ih =>
      have ha : a < listMax (a :: t) + 1 := mem_lt_listMax_succ (List.mem_cons_self a t)
      have hsub : ∀ x ∈ t, x < listMax (a :: t) + 1 := by
        intro x hx
        exact mem_lt_listMax_succ (List.mem_cons_of_mem a hx)
      -- generalized helper: for any K bounding all elements
      clear ih
      have key : ∀ (t' : List ℕ) (K : ℕ), (∀ x ∈ t', x < K) →
          ∑ v ∈ Finset.range K, ((t'.count v : ℕ) : R) * p v = (t'.map p).sum := by
        intro t'
        induction t' with
        | nil => intro K _; simp
        | cons b u ihu =>
          intro K hK
          have hb : b < K := hK b (List.mem_cons_self b u)
          have hu : ∀ x ∈ u, x < K := fun x hx => hK x (List.mem_cons_of_mem b hx)
          have hcount : ∀ v, ((b :: u).count v : ℕ) = u.count v + if b = v then 1 else 0 := by
            intro v
            rcases eq_or_ne b v with h | h
            · subst h; simp [List.count_cons]
            · simp [List.count_cons, h, Ne.symm h]
          calc
            ∑ v ∈ Finset.range K, (((b :: u).count v : ℕ) : R) * p v
                = ∑ v ∈ Finset.range K,
                    (((u.count v : ℕ) : R) * p v + (if b = v then (1 : R) else 0) * p v) := by
                  refine Finset.sum_congr rfl ?_
                  intro v _
                  rw [hcount v]
                  push_cast
                  rcases eq_or_ne b v with h | h
                  · simp [h, add_mul]
                  · simp [h]
            _ = (∑ v ∈ Finset.range K, ((u.count v : ℕ) : R) * p v)
                  + ∑ v ∈ Finset.range K, (if b = v then (1 : R) else 0) * p v := by
                  rw [Finset.sum_add_distrib]
            _ = (u.map p).sum + p b := by
                  rw [ihu K hu]
                  congr 1
                  have : ∀ v, (if b = v then (1 : R) else 0) * p v
                      = if v = b then p v else 0 := by
                    intro v
                    rcases eq_or_ne v b with h | h
                    · simp [h]
                    · simp [h, Ne.symm h]
                  simp only [this]
                  rw [Finset.sum_ite_eq' (Finset.range K) b p]
                  simp [hb]
            _ = ((b :: u).map p).sum := by simp [add_comm]
      exact key (a :: t) (listMax (a :: t) + 1) (fun x hx => mem_lt_listMax_succ hx)

theorem compute_history_score_eq_sum_map (n : ℕ) (M : ℕ → ℕ → ℕ) (p : ℕ → R) :
    compute_history_score n M p = ((trilEntries n M).map p).sum := by
  unfold compute_history_score
  exact bincount_score_eq_sum_map (trilEntries n M) p

theorem compute_history_score_old_eq_sum_map (n : ℕ) (M : ℕ → ℕ → ℕ) (p : ℕ → R) :
    compute_history_score_old n M p = ((trilFull n M).map p).sum := by
  unfold compute_history_score_old
  exact bincount_score_eq_sum_map (trilFull n M) p

end ScoreLemmas

/-- C1: for every square symmetric non-negative-integer history matrix with
zero diagonal and size `n ≥ 2`, under the default exponential penalty the
history score equals the sum over attained strictly-lower-triangular values
`v` of `count v * exp v`; a `2 × 2` zero matrix scores `1` and a `2 × 2`
all-ones matrix scores `exp 1`. -/
theorem history_score_counts_attained_values (n : ℕ) (M : ℕ → ℕ → ℕ)
    (hn : 2 ≤ n)
    (hsym : ∀ i < n, ∀ j < n, M i j = M j i)
    (hdiag : ∀ i < n, M i i = 0) :
    compute_history_score n M (fun v : ℕ => Real.exp v)
        = ∑ v ∈ (trilEntries n M).toFinset,
            (((trilEntries n M).count v : ℕ) : ℝ) * Real.exp v
      ∧ compute_history_score 2 (fun _ _ => 0) (fun v : ℕ => Real.exp v) = 1
      ∧ compute_history_score 2 (fun _ _ => 1) (fun v : ℕ => Real.exp v) = Real.exp 1 := by
  refine ⟨?_, ?_, ?_⟩
  · rw [compute_history_score_eq_sum_map]
    rw [Finset.sum_list_map_count (trilEntries n M) (fun v : ℕ => Real.exp v)]
    refine Finset.sum_congr rfl ?_
    intro v _
    rw [nsmul_eq_mul]
  · have h1 : trilEntries 2 (fun _ _ => 0) = [0] := by decide
    rw [compute_history_score_eq_sum_map, h1]
    simp
  · have h1 : trilEntries 2 (fun _ _ => 1) = [1] := by decide
    rw [compute_history_score_eq_sum_map, h1]
    simp

/-- Witness for C1 at the concrete input `n = 2`, `M = 0`. -/
theorem history_score_counts_attained_values_witness :
    (2 ≤ 2 ∧ (∀ i < 2, ∀ j < 2, (fun (_ _ : ℕ) => 0) i j = (fun (_ _ : ℕ) => 0) j i)
        ∧ (∀ i < 2, (fun (_ _ : ℕ) => 0) i i = 0))
      ∧ (compute_history_score 2 (fun _ _ => 0) (fun v : ℕ => Real.exp v)
            = ∑ v ∈ (trilEntries 2 (fun _ _ => 0)).toFinset,
                (((trilEntries 2 (fun _ _ => 0)).count v : ℕ) : ℝ) * Real.exp v
          ∧ compute_history_score 2 (fun _ _ => 0) (fun v : ℕ => Real.exp v) = 1
          ∧ compute_history_score 2 (fun _ _ => 1) (fun v : ℕ => Real.exp v) = Real.exp 1) :=
  ⟨⟨by decide, by decide, by decide⟩,
    history_score_counts_attained_values 2 (fun _ _ => 0) (by decide) (by decide) (by decide)⟩

section OldNew

variable {R : Type} [Semiring R]

theorem sum_map_flatMap_range (g : ℕ → List ℕ) (p : ℕ → R) (n : ℕ) :
    (((List.range n).flatMap g).map p).sum = ∑ i ∈ Finset.range n, ((g i).map p).sum := by
  induction n with
  | zero => simp
  | succ n ih =>
    rw [List.range_succ, List.flatMap_append, List.map_append, List.sum_append,
      Finset.sum_range_succ, ih]
    simp

theorem trilEntries_sum (n : ℕ) (M : ℕ → ℕ → ℕ) (p : ℕ → R) :
    ((trilEntries n M).map p).sum
      = ∑ i ∈ Finset.range n, ∑ j ∈ Finset.range i, p (M i j) := by
  unfold trilEntries
  rw [sum_map_flatMap_range]
  refine Finset.sum_congr rfl ?_
  intro i _
  rw [List.map_map, sum_map_range]
  rfl

theorem trilFull_sum (n : ℕ) (M : ℕ → ℕ → ℕ) (p : ℕ → R) :
    ((trilFull n M).map p).sum
      = ∑ i ∈ Finset.range n, ∑ j ∈ Finset.range n, p (if j ≤ i then M i j else 0) := by
  unfold trilFull
  rw [sum_map_flatMap_range]
  refine Finset.sum_congr rfl ?_
  intro i _
  rw [List.map_map, sum_map_range]
  rfl

theorem sum_range_sub_eq (n : ℕ) : ∑ i ∈ Finset.range n, (n - i) = n * (n + 1) / 2 := by
  have hrefl : ∑ j ∈ Finset.range n, ((n - 1 - j) + 1) = ∑ j ∈ Finset.range n, (j + 1) :=
    Finset.sum_range_reflect (fun j => j + 1) n
  have h1 : ∑ i ∈ Finset.range n, (n - i) = ∑ j ∈ Finset.range n, (j + 1) := by
    rw [← hrefl]
    refine Finset.sum_congr rfl ?_
    intro j hj
    have := Finset.mem_range.mp hj
    omega
  have h2 : ∑ j ∈ Finset.range (n + 1), j = (∑ j ∈ Finset.range n, (j + 1)) + 0 :=
    Finset.sum_range_succ' id n
  have h3 : (∑ j ∈ Finset.range (n + 1), j) * 2 = n * (n + 1) := by
    have := Finset.sum_range_id_mul_two (n + 1)
    simpa [Nat.mul_comm] using this
  omega

/-- For any matrix with zero diagonal, the older score (over `np.tril` of the
full matrix) exceeds the newer score (over the strict lower triangle) by
exactly `n * (n + 1) / 2` extra zero-cells worth of penalty. -/
theorem score_old_eq_score_add (n : ℕ) (M : ℕ → ℕ → ℕ) (p : ℕ → R)
    (hdiag : ∀ i < n, M i i = 0) :
    compute_history_score_old n M p
      = compute_history_score n M p + ((n * (n + 1) / 2 : ℕ) : R) * p 0 := by
  rw [compute_history_score_old_eq_sum_map, compute_history_score_eq_sum_map,
    trilEntries_sum, trilFull_sum]
  have hrow : ∀ i ∈ Finset.range n,
      ∑ j ∈ Finset.range n, p (if j ≤ i then M i j else 0)
        = (∑ j ∈ Finset.range i, p (M i j)) + (n - i) • p 0 := by
    intro i hi
    have hin : i < n := Finset.mem_range.mp hi
    have hsplit : ∑ j ∈ Finset.Ico 0 (i + 1), p (if j ≤ i then M i j else 0)
          + ∑ j ∈ Finset.Ico (i + 1) n, p (if j ≤ i then M i j else 0)
        = ∑ j ∈ Finset.Ico 0 n, p (if j ≤ i then M i j else 0) :=
      Finset.sum_Ico_consecutive _ (Nat.zero_le _) hin
    rw [← Finset.range_eq_Ico] at *
    rw [← hsplit]
    have hlow : ∑ j ∈ Finset.range (i + 1), p (if j ≤ i then M i j else 0)
        = (∑ j ∈ Finset.range i, p (M i j)) + p 0 := by
      rw [Finset.sum_range_succ]
      have hdi : M i i = 0 := hdiag i hin
      simp only [le_refl, if_true, hdi]
      congr 1
      refine Finset.sum_congr rfl ?_
      intro j hj
      have := Finset.mem_range.mp hj
      simp [Nat.le_of_lt this]
    have hhigh : ∑ j ∈ Finset.Ico (i + 1) n, p (if j ≤ i then M i j else 0)
        = (n - (i + 1)) • p 0 := by
      rw [Finset.sum_congr rfl (fun j hj => ?_), Finset.sum_const, Nat.card_Ico]
      have := (Finset.mem_Ico.mp hj).1
      have hji : ¬ j ≤ i := by omega
      simp [hji]
    rw [hlow, hhigh]
    have hn1 : n - i = (n - (i + 1)) + 1 := by omega
    rw [hn1, succ_nsmul]
    rw [add_assoc]
    congr 1
    rw [add_comm]
  rw [Finset.sum_congr rfl hrow, Finset.sum_add_distrib]
  congr 1
  rw [← Finset.sum_smul, sum_range_sub_eq, nsmul_eq_mul]

end OldNew

/-- `np.argmin` over a running best value: first index of the minimum.  The
accumulator holds the next index, the current best value and its index. -/
def argminAux {R : Type} [LinearOrder R] : List R → ℕ → R → ℕ → ℕ
  | [], _, _, best => best
  | x :: xs, i, bv, best =>
      if x < bv then argminAux xs (i + 1) x i else argminAux xs (i + 1) bv best

/-- `np.argmin`: index of the first occurrence of the minimum (0 on an empty
list, where numpy would raise). -/
def argminList {R : Type} [LinearOrder R] : List R → ℕ
  | [] => 0
  | x :: xs => argminAux xs 1 x 0

theorem argminAux_map_add {R : Type} [LinearOrderedField R] (c : R) :
    ∀ (xs : List R) (i : ℕ) (bv : R) (b : ℕ),
      argminAux (xs.map (fun x => x + c)) i (bv + c) b = argminAux xs i bv b := by
  intro xs
  induction xs with
  | nil => intro i bv b; rfl
  | cons x t ih =>
    intro i bv b
    simp only [List.map_cons, argminAux, add_lt_add_iff_right]
    by_cases h : x < bv
    · simp [h, ih]
    · simp [h, ih]

theorem argminList_map_add {R : Type} [LinearOrderedField R] (c : R) (l : List R) :
    argminList (l.map (fun x => x + c)) = argminList l := by
  cases l with
  | nil => rfl
  | cons x t =>
    simp only [List.map_cons, argminList]
    exact argminAux_map_add c t 1 x 0

/-- C10: the older history-score variant (bincount over `np.tril` of the full
matrix) equals the newer one (strict lower triangle only) plus
`n * (n + 1) / 2 · p 0`, and consequently over any list of same-size
zero-diagonal candidate histories both variants select the same (first)
minimizer. -/
theorem old_variant_refines_new_variant {R : Type} [LinearOrderedField R]
    (n : ℕ) (M : ℕ → ℕ → ℕ) (p : ℕ → R)
    (hn : 2 ≤ n)
    (hsym : ∀ i < n, ∀ j < n, M i j = M j i)
    (hdiag : ∀ i < n, M i i = 0)
    (l : List (ℕ → ℕ → ℕ)) (hl : ∀ A ∈ l, ∀ i < n, A i i = 0) :
    compute_history_score_old n M p
        = compute_history_score n M p + ((n * (n + 1) / 2 : ℕ) : R) * p 0
      ∧ argminList (l.map (fun A => compute_history_score_old n A p))
        = argminList (l.map (fun A => compute_history_score n A p)) := by
  refine ⟨score_old_eq_score_add n M p hdiag, ?_⟩
  have hmap : l.map (fun A => compute_history_score_old n A p)
      = (l.map (fun A => compute_history_score n A p)).map
          (fun x => x + ((n * (n + 1) / 2 : ℕ) : R) * p 0) := by
    rw [List.map_map]
    refine List.map_congr_left ?_
    intro A hA
    exact score_old_eq_score_add n A p (hl A hA)
  rw [hmap, argminList_map_add]

/-- Witness for C10 at `n = 2`, the zero matrix, `p = Nat.cast` into `ℚ`, and a
one-candidate list. -/
theorem old_variant_refines_new_variant_witness :
    (2 ≤ 2
        ∧ (∀ i < 2, ∀ j < 2, (fun (_ _ : ℕ) => 0) i j = (fun (_ _ : ℕ) => 0) j i)
        ∧ (∀ i < 2, (fun (_ _ : ℕ) => 0) i i = 0)
        ∧ (∀ A ∈ [fun (_ _ : ℕ) => 0], ∀ i < 2, A i i = 0))
      ∧ (compute_history_score_old 2 (fun _ _ => 0) (fun v : ℕ => (v : ℚ))
            = compute_history_score 2 (fun _ _ => 0) (fun v : ℕ => (v : ℚ))
              + ((2 * (2 + 1) / 2 : ℕ) : ℚ) * ((0 : ℕ) : ℚ)
          ∧ argminList ([fun (_ _ : ℕ) => 0].map
                (fun A => compute_history_score_old 2 A (fun v : ℕ => (v : ℚ))))
            = argminList ([fun (_ _ : ℕ) => 0].map
                (fun A => compute_history_score 2 A (fun v : ℕ => (v : ℚ))))) :=
  ⟨⟨by decide, by decide, by decide,
      fun A hA i _ => by rw [List.eq_of_mem_singleton hA]⟩,
    old_variant_refines_new_variant 2 (fun _ _ => 0) (fun v : ℕ => (v : ℚ))
      (by decide) (by decide) (by decide) [fun _ _ => 0]
      (fun A hA i _ => by rw [List.eq_of_mem_singleton hA])⟩

/-- The chunk sizes of `np.array_split(ids, k)` on a length-`n` sequence: the
first `n % k` chunks have size `n / k + 1`, the rest size `n / k`. -/
def splitSizes (n k : ℕ) : List ℕ :=
  (List.range k).map (fun i => if i < n % k then n / k + 1 else n / k)

/-- Cut successive chunks of the given sizes off the front of a list. -/
def takeChunks : List ℕ → List ℕ → List (List ℕ)
  | _, [] => []
  | l, s :: ss => l.take s :: takeChunks (l.drop s) ss

/-- `np.array_split(l, k)`: split `l` into `k` contiguous, as-equal-as-possible
chunks. -/
def array_split (l : List ℕ) (k : ℕ) : List (List ℕ) :=
  takeChunks l (splitSizes l.length k)

/-- `_create_chunks` from `src/randomgroups/algorithm.py`: split the id list
into `len(ids) // min_size` near-equal contiguous chunks. -/
def create_chunks (ids : List ℕ) (min_size : ℕ) : List (List ℕ) :=
  array_split ids (ids.length / min_size)

/-- `_create_candidate_matching`: shuffle the ids (the shuffle performed by the
numpy generator is an explicit argument) and chunk the result. -/
def create_candidate_matching (ids : List ℕ) (min_size : ℕ)
    (shuffle : List ℕ → List ℕ) : List (List ℕ) :=
  create_chunks (shuffle ids) min_size

/-- `draw_candidate_matchings`: one candidate per draw; `shuffles i` is the
permutation the stateful generator applies on the `i`-th draw. -/
def draw_candidate_matchings (ids : List ℕ) (min_size n_draws : ℕ)
    (shuffles : ℕ → List ℕ → List ℕ) : List (List (List ℕ)) :=
  (List.range n_draws).map
    (fun i => create_candidate_matching ids min_size (shuffles i))

theorem sum_ite_lt_range (q r k : ℕ) :
    ∑ i ∈ Finset.range k, (if i < r then q + 1 else q) = k * q + min r k := by
  induction k with
  | zero => simp
  | succ m ih =>
    rw [Finset.sum_range_succ, ih]
    by_cases h : m < r <;> simp [h, Nat.succ_mul] <;> omega

theorem splitSizes_sum (n k : ℕ) (hk : 0 < k) : (splitSizes n k).sum = n := by
  unfold splitSizes
  rw [sum_map_range, sum_ite_lt_range]
  have hmod : n % k < k := Nat.mod_lt n hk
  have hdm : k * (n / k) + n % k = n := Nat.div_add_mod n k
  have hmin : min (n % k) k = n % k := by omega
  omega

theorem takeChunks_length (l ss : List ℕ) : (takeChunks l ss).length = ss.length := by
  induction ss generalizing l with
  | nil => rfl
  | cons s t ih => simp [takeChunks, ih]

theorem takeChunks_map_length (l ss : List ℕ) (h : ss.sum ≤ l.length) :
    (takeChunks l ss).map List.length = ss := by
  induction ss generalizing l with
  | nil => rfl
  | cons s t ih =>
    have hs : s ≤ l.length := by
      have : s ≤ s + t.sum := Nat.le_add_right _ _
      simp only [List.sum_cons] at h
      omega
    have hdrop : t.sum ≤ (l.drop s).length := by
      simp only [List.length_drop]
      simp only [List.sum_cons] at h
      omega
    simp [takeChunks, ih (l.drop s) hdrop, List.length_take, Nat.min_eq_left hs]

theorem takeChunks_flatten (l ss : List ℕ) (h : ss.sum = l.length) :
    (takeChunks l ss).flatten = l := by
  induction ss generalizing l with
  | nil =>
    simp only [List.sum_nil] at h
    simp [takeChunks, (List.length_eq_zero.mp h.symm)]
  | cons s t ih =>
    have hdrop : t.sum = (l.drop s).length := by
      simp only [List.length_drop]
      simp only [List.sum_cons] at h
      omega
    simp [takeChunks, ih (l.drop s) hdrop]

theorem splitSizes_mem (n k s : ℕ) (hs : s ∈ splitSizes n k) :
    s = n / k ∨ s = n / k + 1 := by
  unfold splitSizes at hs
  rcases List.mem_map.mp hs with ⟨i, _, hi⟩
  by_cases h : i < n % k
  · right; rw [← hi]; simp [h]
  · left; rw [← hi]; simp [h]

theorem min_size_le_div (n s : ℕ) (h1 : 1 ≤ s) (h2 : s ≤ n) : s ≤ n / (n / s) := by
  have hk : 0 < n / s := Nat.div_pos h2 h1
  rw [Nat.le_div_iff_mul_le hk]
  calc s * (n / s) = n / s * s := Nat.mul_comm _ _
    _ ≤ n := Nat.div_mul_le_self n s

/-- Core properties of `_create_chunks`: the chunks concatenate back to the
input, their sizes are the `np.array_split` sizes, and every size lies between
`min_size` and `⌊n/k⌋ + 1` (`k = ⌊n/min_size⌋`). -/
theorem create_chunks_props (ids : List ℕ) (min_size : ℕ)
    (h1 : 1 ≤ min_size) (h2 : min_size ≤ ids.length) :
    (create_chunks ids min_size).flatten = ids
      ∧ (create_chunks ids min_size).map List.length
          = splitSizes ids.length (ids.length / min_size)
      ∧ ∀ g ∈ create_chunks ids min_size,
          min_size ≤ g.length
            ∧ g.length ≤ ids.length / (ids.length / min_size) + 1 := by
  have hk : 0 < ids.length / min_size := Nat.div_pos h2 h1
  have hsum : (splitSizes ids.length (ids.length / min_size)).sum = ids.length :=
    splitSizes_sum _ _ hk
  have hflat : (create_chunks ids min_size).flatten = ids :=
    takeChunks_flatten _ _ hsum
  have hlens : (create_chunks ids min_size).map List.length
      = splitSizes ids.length (ids.length / min_size) :=
    takeChunks_map_length _ _ (le_of_eq hsum)
  refine ⟨hflat, hlens, ?_⟩
  intro g hg
  have hmem : g.length ∈ splitSizes ids.length (ids.length / min_size) := by
    rw [← hlens]
    exact List.mem_map_of_mem List.length hg
  have hms : min_size ≤ ids.length / (ids.length / min_size) :=
    min_size_le_div ids.length min_size h1 h2
  rcases splitSizes_mem _ _ _ hmem with h | h <;> omega

/-- C2: for every duplicate-free participant list with
`1 ≤ min_size ≤ n` and every draw count, `draw_candidate_matchings` returns
exactly `n_draws` partitions; in each one the groups are pairwise disjoint,
their concatenation is a permutation of the participants (each participant
occurs exactly once), every group has at least `min_size` members, and no two
group sizes differ by more than one.  The shuffles performed by the generator
are abstract, assumed only to permute the participant list. -/
theorem draw_returns_valid_partitions (ids : List ℕ) (min_size n_draws : ℕ)
    (shuffles : ℕ → List ℕ → List ℕ)
    (hnd : ids.Nodup) (h1 : 1 ≤ min_size) (h2 : min_size ≤ ids.length)
    (hsh : ∀ i, (shuffles i ids).Perm ids) :
    (draw_candidate_matchings ids min_size n_draws shuffles).length = n_draws
      ∧ ∀ m ∈ draw_candidate_matchings ids min_size n_draws shuffles,
          m.flatten.Perm ids
            ∧ (∀ x ∈ ids, m.flatten.count x = 1)
            ∧ m.Pairwise List.Disjoint
            ∧ (∀ g ∈ m, min_size ≤ g.length)
            ∧ (∀ g1 ∈ m, ∀ g2 ∈ m, g1.length ≤ g2.length + 1) := by
  constructor
  · simp [draw_candidate_matchings]
  · intro m hm
    rcases List.mem_map.mp hm with ⟨i, _, hi⟩
    set l := shuffles i ids with hl
    have hperm : l.Perm ids := hsh i
    have hlen : l.length = ids.length := hperm.length_eq
    have hnl : l.Nodup := (hperm.nodup_iff).mpr hnd
    have h2l : min_size ≤ l.length := by omega
    have hprops := create_chunks_props l min_size h1 h2l
    have hmckl : m = create_chunks l min_size := by
      rw [← hi]; rfl
    rcases hprops with ⟨hflat, hlens, hsizes⟩
    have hflatm : m.flatten = l := by rw [hmckl]; exact hflat
    have hpermm : m.flatten.Perm ids := by rw [hflatm]; exact hperm
    refine ⟨hpermm, ?_, ?_, ?_, ?_⟩
    · intro x hx
      have hxm : x ∈ m.flatten := (hpermm.mem_iff).mpr hx
      have hnodupf : m.flatten.Nodup := by rw [hflatm]; exact hnl
      have hle := List.nodup_iff_count_le_one.mp hnodupf x
      have hpos := List.count_pos_iff.mpr hxm
      omega
    · have hnodupf : m.flatten.Nodup := by rw [hflatm]; exact hnl
      exact (List.nodup_flatten.mp hnodupf).2
    · intro g hg
      rw [hmckl] at hg
      exact (hsizes g hg).1
    · intro g1 hg1 g2 hg2
      rw [hmckl] at hg1 hg2
      have e1 := hsizes g1 hg1
      have e2 := hsizes g2 hg2
      have hm1 : g1.length ∈ splitSizes l.length (l.length / min_size) := by
        rw [← hlens]
        exact List.mem_map_of_mem List.length hg1
      have hm2 : g2.length ∈ splitSizes l.length (l.length / min_size) := by
        rw [← hlens]
        exact List.mem_map_of_mem List.length hg2
      rcases splitSizes_mem _ _ _ hm1 with h | h <;>
        rcases splitSizes_mem _ _ _ hm2 with h' | h' <;> omega

/-- Witness for C2 at `ids = [0, 1, 2]`, `min_size = 1`, one draw, identity
shuffles. -/
theorem draw_returns_valid_partitions_witness :
    ([0, 1, 2] : List ℕ).Nodup ∧ 1 ≤ 1 ∧ 1 ≤ ([0, 1, 2] : List ℕ).length
      ∧ ((draw_candidate_matchings [0, 1, 2] 1 1 (fun _ l => l)).length = 1
          ∧ ∀ m ∈ draw_candidate_matchings [0, 1, 2] 1 1 (fun _ l => l),
              m.flatten.Perm [0, 1, 2]
                ∧ (∀ x ∈ ([0, 1, 2] : List ℕ), m.flatten.count x = 1)
                ∧ m.Pairwise List.Disjoint
                ∧ (∀ g ∈ m, 1 ≤ g.length)
                ∧ (∀ g1 ∈ m, ∀ g2 ∈ m, g1.length ≤ g2.length + 1)) :=
  ⟨by decide, by decide, by decide,
    draw_returns_valid_partitions [0, 1, 2] 1 1 (fun _ l => l)
      (by decide) (by decide) (by decide) (fun _ => List.Perm.refl _)⟩

theorem countP_lt_range (r k : ℕ) :
    (List.range k).countP (fun i => decide (i < r)) = min r k := by
  induction k with
  | zero => simp
  | succ m ih =>
    rw [List.range_succ, List.countP_append, ih]
    by_cases h : m < r <;> simp [List.countP_cons, h] <;> omega

/-- C5 counterexample: with 8 participants and `min_size = 3` the code
produces two groups of size 4, so more than one group exceeds the effective
minimum size. -/
theorem single_oversized_group_counterexample :
    create_chunks (List.range 8) 3 = [[0, 1, 2, 3], [4, 5, 6, 7]]
      ∧ ¬ (((create_chunks (List.range 8) 3).filter
            (fun g => decide (3 < g.length))).length ≤ 1) := by
  constructor
  · decide
  · decide

/-- C5 (amended): every group has size at least `min_size`; all group sizes
lie in `{⌊n/k⌋, ⌊n/k⌋ + 1}` with `k = ⌊n/min_size⌋`, exactly `n % k` groups —
possibly more than one — having the larger size; hence no two group sizes
differ by more than one, but several groups may strictly exceed the effective
minimum size. -/
theorem chunk_sizes_near_equal (ids : List ℕ) (min_size : ℕ)
    (h1 : 1 ≤ min_size) (h2 : min_size ≤ ids.length) :
    (∀ g ∈ create_chunks ids min_size,
        min_size ≤ g.length
          ∧ (g.length = ids.length / (ids.length / min_size)
              ∨ g.length = ids.length / (ids.length / min_size) + 1))
      ∧ ((create_chunks ids min_size).filter
            (fun g => decide (ids.length / (ids.length / min_size) < g.length))).length
          = ids.length % (ids.length / min_size)
      ∧ (∀ g1 ∈ create_chunks ids min_size, ∀ g2 ∈ create_chunks ids min_size,
          g1.length ≤ g2.length + 1) := by
  have hk : 0 < ids.length / min_size := Nat.div_pos h2 h1
  rcases create_chunks_props ids min_size h1 h2 with ⟨hflat, hlens, hsizes⟩
  have hmemsizes : ∀ g ∈ create_chunks ids min_size,
      g.length ∈ splitSizes ids.length (ids.length / min_size) := by
    intro g hg
    rw [← hlens]
    exact List.mem_map_of_mem List.length hg
  refine ⟨?_, ?_, ?_⟩
  · intro g hg
    refine ⟨(hsizes g hg).1, ?_⟩
    exact splitSizes_mem _ _ _ (hmemsizes g hg)
  · rw [← List.countP_eq_length_filter]
    have hmap : (create_chunks ids min_size).countP
          (fun g => decide (ids.length / (ids.length / min_size) < g.length))
        = (splitSizes ids.length (ids.length / min_size)).countP
            (fun s => decide (ids.length / (ids.length / min_size) < s)) := by
      rw [← hlens, List.countP_map]
      rfl
    rw [hmap]
    unfold splitSizes
    rw [List.countP_map]
    have hcongr : ∀ i ∈ List.range (ids.length / min_size),
        (((fun s => decide (ids.length / (ids.length / min_size) < s)) ∘
            (fun i => if i < ids.length % (ids.length / min_size)
              then ids.length / (ids.length / min_size) + 1
              else ids.length / (ids.length / min_size))) i = true
          ↔ (fun i => decide (i < ids.length % (ids.length / min_size))) i = true) := by
      intro i _
      by_cases h : i < ids.length % (ids.length / min_size) <;> simp [h]
    rw [List.countP_congr hcongr, countP_lt_range]
    have := Nat.mod_lt ids.length hk
    omega
  · intro g1 hg1 g2 hg2
    rcases splitSizes_mem _ _ _ (hmemsizes g1 hg1) with h | h <;>
      rcases splitSizes_mem _ _ _ (hmemsizes g2 hg2) with h' | h' <;> omega

/-- Witness for the amended C5 at `ids = [0, …, 7]`, `min_size = 3`. -/
theorem chunk_sizes_near_equal_witness :
    (1 ≤ 3 ∧ 3 ≤ (List.range 8).length)
      ∧ ((∀ g ∈ create_chunks (List.range 8) 3,
            3 ≤ g.length
              ∧ (g.length = (List.range 8).length / ((List.range 8).length / 3)
                  ∨ g.length = (List.range 8).length / ((List.range 8).length / 3) + 1))
          ∧ ((create_chunks (List.range 8) 3).filter
                (fun g => decide ((List.range 8).length / ((List.range 8).length / 3)
                  < g.length))).length
              = (List.range 8).length % ((List.range 8).length / 3)
          ∧ (∀ g1 ∈ create_chunks (List.range 8) 3,
              ∀ g2 ∈ create_chunks (List.range 8) 3, g1.length ≤ g2.length + 1)) :=
  ⟨⟨by decide, by decide⟩, chunk_sizes_near_equal (List.range 8) 3 (by decide) (by decide)⟩

/-- `itertools.combinations(g, 2)`: all ordered-position pairs of a list. -/
def pairsOf : List ℕ → List (ℕ × ℕ)
  | [] => []
  | x :: xs => (xs.map (fun y => (x, y))) ++ pairsOf xs

/-- One `updated_history.loc[a, b] += 1` step. -/
def incr (M : ℕ → ℕ → ℕ) (a b : ℕ) : ℕ → ℕ → ℕ :=
  fun x y => if x = a ∧ y = b then M x y + 1 else M x y

/-- The two symmetric `+= 1` updates done for one combination `(a, b)`. -/
def bump (M : ℕ → ℕ → ℕ) (pr : ℕ × ℕ) : ℕ → ℕ → ℕ :=
  incr (incr M pr.1 pr.2) pr.2 pr.1

/-- `update_matchings_history` from `src/randomgroups/algorithm.py`: for every
group of the matching and every 2-combination of its members, increment both
symmetric entries of a copy of the history. -/
def update_matchings_history (M : ℕ → ℕ → ℕ) (matching : List (List ℕ)) :
    ℕ → ℕ → ℕ :=
  ((matching.map pairsOf).flatten).foldl bump M

/-- Two identities are co-located when some group of the partition contains
both. -/
def coLocated (P : List (List ℕ)) (i j : ℕ) : Prop :=
  ∃ g ∈ P, i ∈ g ∧ j ∈ g

instance (P : List (List ℕ)) (i j : ℕ) : Decidable (coLocated P i j) := by
  unfold coLocated
  infer_instance

theorem pairsOf_ne (g : List ℕ) (hg : g.Nodup) :
    ∀ pr ∈ pairsOf g, pr.1 ≠ pr.2 := by
  induction g with
  | nil => intro pr h; cases h
  | cons a t ih =>
    intro pr hpr
    rcases List.nodup_cons.mp hg with ⟨hna, hnt⟩
    rcases List.mem_append.mp hpr with h | h
    · rcases List.mem_map.mp h with ⟨y, hy, hpr2⟩
      rw [← hpr2]
      intro hcontra
      simp only at hcontra
      exact hna (hcontra ▸ hy)
    · exact ih hnt pr h


theorem foldl_bump_count (x y : ℕ) :
    ∀ (ps : List (ℕ × ℕ)) (M : ℕ → ℕ → ℕ), (∀ pr ∈ ps, pr.1 ≠ pr.2) →
      (ps.foldl bump M) x y
        = M x y + ps.countP
            (fun pr => decide ((pr.1 = x ∧ pr.2 = y) ∨ (pr.1 = y ∧ pr.2 = x))) := by
  intro ps
  induction ps with
  | nil => intro M _; simp
  | cons pr t ih =>
    intro M hne
    have hpr : pr.1 ≠ pr.2 := hne pr (List.mem_cons_self pr t)
    have ht : ∀ q ∈ t, q.1 ≠ q.2 := fun q hq => hne q (List.mem_cons_of_mem pr hq)
    rw [List.foldl_cons, ih (bump M pr) ht]
    have hbump : (bump M pr) x y
        = M x y + (if (pr.1 = x ∧ pr.2 = y) ∨ (pr.1 = y ∧ pr.2 = x) then 1 else 0) := by
      rcases pr with ⟨a, b⟩
      simp only at hpr
      unfold bump incr
      simp only
      split_ifs <;> omega
    rw [hbump, List.countP_cons]
    simp only [decide_eq_true_eq]
    by_cases hc : (pr.1 = x ∧ pr.2 = y) ∨ (pr.1 = y ∧ pr.2 = x)
    · simp only [hc, if_true]
      omega
    · simp only [hc, if_false]
      omega

theorem countP_eq_singleton_mem (t : List ℕ) (hnt : t.Nodup) (y : ℕ) :
    t.countP (fun z => decide (z = y)) = if y ∈ t then 1 else 0 := by
  induction t with
  | nil => simp
  | cons b u ihu =>
    rcases List.nodup_cons.mp hnt with ⟨hnb, hnu⟩
    rw [List.countP_cons, ihu hnu]
    by_cases hby : b = y
    · subst hby
      simp [hnb]
    · by_cases hyu : y ∈ u <;> simp [hby, Ne.symm hby, hyu, List.mem_cons]

theorem pairsOf_pair_count (g : List ℕ) (hg : g.Nodup) (x y : ℕ) (hxy : x ≠ y) :
    (pairsOf g).countP
        (fun pr => decide ((pr.1 = x ∧ pr.2 = y) ∨ (pr.1 = y ∧ pr.2 = x)))
      = if x ∈ g ∧ y ∈ g then 1 else 0 := by
  induction g with
  | nil => simp [pairsOf]
  | cons a t ih =>
    rcases List.nodup_cons.mp hg with ⟨hna, hnt⟩
    rw [pairsOf, List.countP_append, List.countP_map, ih hnt]
    by_cases hax : a = x
    · subst hax
      have hay : a ≠ y := hxy
      have hc1 : ∀ z ∈ t,
          (((fun pr : ℕ × ℕ => decide ((pr.1 = a ∧ pr.2 = y) ∨ (pr.1 = y ∧ pr.2 = a)))
              ∘ (fun z => ((a : ℕ), z))) z = true
            ↔ (fun z => decide (z = y)) z = true) := by
        intro z _
        simp [hay, Ne.symm hay]
      rw [List.countP_congr hc1, countP_eq_singleton_mem t hnt y]
      by_cases hyt : y ∈ t
      · simp [hyt, hna, List.mem_cons]
      · have hya : y ≠ a := fun h => hay h.symm
        simp [hyt, hna, List.mem_cons, hya]
    · by_cases hay : a = y
      · subst hay
        have hax2 : a ≠ x := hax
        have hc1 : ∀ z ∈ t,
            (((fun pr : ℕ × ℕ => decide ((pr.1 = x ∧ pr.2 = a) ∨ (pr.1 = a ∧ pr.2 = x)))
                ∘ (fun z => ((a : ℕ), z))) z = true
              ↔ (fun z => decide (z = x)) z = true) := by
          intro z _
          simp [hax2, Ne.symm hax2]
        rw [List.countP_congr hc1, countP_eq_singleton_mem t hnt x]
        by_cases hxt : x ∈ t
        · simp [hxt, hna, List.mem_cons]
        · have hxa : x ≠ a := fun h => hax2 h.symm
          simp [hxt, hna, List.mem_cons, hxa]
      · have hc1 : ∀ z ∈ t,
            (((fun pr : ℕ × ℕ => decide ((pr.1 = x ∧ pr.2 = y) ∨ (pr.1 = y ∧ pr.2 = x)))
                ∘ (fun z => ((a : ℕ), z))) z = true
              ↔ (fun _ => false) z = true) := by
          intro z _
          simp [hax, hay]
        rw [List.countP_congr hc1, List.countP_false]
        have hxa : x ≠ a := fun h => hax h.symm
        have hya : y ≠ a := fun h => hay h.symm
        by_cases hxt : x ∈ t <;> by_cases hyt : y ∈ t <;>
          simp [hxt, hyt, hxa, hya, List.mem_cons]

theorem matching_pairs_count (P : List (List ℕ))
    (hnodup : ∀ g ∈ P, g.Nodup) (hdisj : P.Pairwise List.Disjoint)
    (x y : ℕ) (hxy : x ≠ y) :
    ((P.map pairsOf).flatten).countP
        (fun pr => decide ((pr.1 = x ∧ pr.2 = y) ∨ (pr.1 = y ∧ pr.2 = x)))
      = if coLocated P x y then 1 else 0 := by
  induction P with
  | nil => simp [coLocated]
  | cons g Q ih =>
    rcases List.pairwise_cons.mp hdisj with ⟨hdg, hdQ⟩
    have hng : g.Nodup := hnodup g (List.mem_cons_self g Q)
    have hnQ : ∀ h ∈ Q, h.Nodup := fun h hh => hnodup h (List.mem_cons_of_mem g hh)
    simp only [List.map_cons, List.flatten_cons, List.countP_append]
    rw [pairsOf_pair_count g hng x y hxy, ih hnQ hdQ]
    have hco : coLocated (g :: Q) x y ↔ (x ∈ g ∧ y ∈ g) ∨ coLocated Q x y := by
      constructor
      · rintro ⟨h, hh, hxh, hyh⟩
        rcases List.mem_cons.mp hh with rfl | hh2
        · exact Or.inl ⟨hxh, hyh⟩
        · exact Or.inr ⟨h, hh2, hxh, hyh⟩
      · rintro (⟨hx, hy⟩ | ⟨h, hh, hx, hy⟩)
        · exact ⟨g, List.mem_cons_self g Q, hx, hy⟩
        · exact ⟨h, List.mem_cons_of_mem g hh, hx, hy⟩
    by_cases hg : x ∈ g ∧ y ∈ g
    · have hnotQ : ¬ coLocated Q x y := by
        rintro ⟨h, hh, hx, hy⟩
        exact (hdg h hh) hg.1 hx
      simp [hg, hnotQ, hco]
    · simp [hg, hco]

/-- C3: for every symmetric history matrix `H` and every partition `P`
(duplicate-free, pairwise disjoint groups), `update_matchings_history`
increments both symmetric entries of every unordered co-located pair of
distinct identities by exactly 1, leaves pairs that are not co-located
unchanged, never modifies the diagonal, and returns a symmetric matrix.
(The input `H` itself is unchanged: the embedding is a pure function of
`H`.) -/
theorem fold_in_increments_colocated_pairs (H : ℕ → ℕ → ℕ) (P : List (List ℕ))
    (hsym : ∀ i j, H i j = H j i)
    (hnodup : ∀ g ∈ P, g.Nodup) (hdisj : P.Pairwise List.Disjoint) :
    (∀ i j, i ≠ j → coLocated P i j →
        update_matchings_history H P i j = H i j + 1
          ∧ update_matchings_history H P j i = H j i + 1)
      ∧ (∀ i j, ¬ coLocated P i j → update_matchings_history H P i j = H i j)
      ∧ (∀ i, update_matchings_history H P i i = H i i)
      ∧ (∀ i j, update_matchings_history H P i j
          = update_matchings_history H P j i) := by
  have hne : ∀ pr ∈ (P.map pairsOf).flatten, pr.1 ≠ pr.2 := by
    intro pr hpr
    rcases List.mem_flatten.mp hpr with ⟨l, hl, hprl⟩
    rcases List.mem_map.mp hl with ⟨g, hgP, rfl⟩
    exact pairsOf_ne g (hnodup g hgP) pr hprl
  have hU : ∀ x y, update_matchings_history H P x y
      = H x y + ((P.map pairsOf).flatten).countP
          (fun pr => decide ((pr.1 = x ∧ pr.2 = y) ∨ (pr.1 = y ∧ pr.2 = x))) :=
    fun x y => foldl_bump_count x y _ H hne
  have hdiagcount : ∀ i, ((P.map pairsOf).flatten).countP
      (fun pr => decide ((pr.1 = i ∧ pr.2 = i) ∨ (pr.1 = i ∧ pr.2 = i))) = 0 := by
    intro i
    rw [List.countP_eq_zero]
    intro pr hpr
    have := hne pr hpr
    simp only [decide_eq_true_eq]
    omega
  refine ⟨?_, ?_, ?_, ?_⟩
  · intro i j hij hco
    constructor
    · rw [hU i j, matching_pairs_count P hnodup hdisj i j hij]
      simp [hco]
    · have hco2 : coLocated P j i := by
        rcases hco with ⟨g, hg, hi, hj⟩
        exact ⟨g, hg, hj, hi⟩
      rw [hU j i, matching_pairs_count P hnodup hdisj j i (Ne.symm hij)]
      simp [hco2]
  · intro i j hco
    by_cases hij : i = j
    · subst hij
      rw [hU i i, hdiagcount i]
      omega
    · rw [hU i j, matching_pairs_count P hnodup hdisj i j hij]
      simp [hco]
  · intro i
    rw [hU i i, hdiagcount i]
    omega
  · intro i j
    rw [hU i j, hU j i, hsym i j]
    congr 1
    refine List.countP_congr ?_
    intro pr _
    simp only [decide_eq_true_eq]
    constructor <;> intro h <;> omega

/-- Witness for C3 at `H = 0` and the partition `[[0, 1], [2]]`. -/
theorem fold_in_increments_colocated_pairs_witness :
    ((∀ i j : ℕ, (fun (_ _ : ℕ) => 0) i j = (fun (_ _ : ℕ) => 0) j i)
        ∧ (∀ g ∈ ([[0, 1], [2]] : List (List ℕ)), g.Nodup)
        ∧ ([[0, 1], [2]] : List (List ℕ)).Pairwise List.Disjoint)
      ∧ ((∀ i j, i ≠ j → coLocated [[0, 1], [2]] i j →
            update_matchings_history (fun _ _ => 0) [[0, 1], [2]] i j
                = (fun (_ _ : ℕ) => 0) i j + 1
              ∧ update_matchings_history (fun _ _ => 0) [[0, 1], [2]] j i
                = (fun (_ _ : ℕ) => 0) j i + 1)
          ∧ (∀ i j, ¬ coLocated [[0, 1], [2]] i j →
              update_matchings_history (fun _ _ => 0) [[0, 1], [2]] i j
                = (fun (_ _ : ℕ) => 0) i j)
          ∧ (∀ i, update_matchings_history (fun _ _ => 0) [[0, 1], [2]] i i
              = (fun (_ _ : ℕ) => 0) i i)
          ∧ (∀ i j, update_matchings_history (fun _ _ => 0) [[0, 1], [2]] i j
              = update_matchings_history (fun _ _ => 0) [[0, 1], [2]] j i)) :=
  ⟨⟨fun _ _ => rfl, by decide, by
      refine List.Pairwise.cons ?_ ?_
      · intro g hg
        rw [List.mem_singleton.mp hg]
        intro a ha hb
        simp only [List.mem_cons, List.not_mem_nil, or_false] at ha hb
        omega
      · exact List.pairwise_singleton _ _⟩,
    fold_in_increments_colocated_pairs (fun _ _ => 0) [[0, 1], [2]]
      (fun _ _ => rfl) (by decide) (by
        refine List.Pairwise.cons ?_ ?_
        · intro g hg
          rw [List.mem_singleton.mp hg]
          intro a ha hb
          simp only [List.mem_cons, List.not_mem_nil, or_false] at ha hb
          omega
        · exact List.pairwise_singleton _ _)⟩

/-- A participant row as seen by the assortativity scorer: the numeric
`wants_mixing` flag and, for each status dimension, an optional categorical
status value (`none` models a missing / NaN cell). -/
structure Member where
  wants_mixing : ℤ
  statuses : ℕ → Option ℕ

/-- `group[status].dropna().unique()`: the distinct non-missing status values
of a group in one dimension. -/
def uniqueStatuses (g : List Member) (t : ℕ) : List ℕ :=
  (g.filterMap (fun m => m.statuses t)).dedup

/-- The per-member "wants assortative" signal
`(1 - wants_mixing) * mixing_multiplier[status] * n_unique_status`. -/
def memberSignal {R : Type} [Field R] (mult : ℕ → R) (nu t : ℕ) (m : Member) : R :=
  ((1 - m.wants_mixing : ℤ) : R) * (mult t * (nu : R))

/-- The contribution of one group and one status dimension inside
`_compute_assortativity_score`: the mean of the member signals when the group
has more than one distinct status value, else nothing. -/
def groupStatusScore {R : Type} [Field R] (mult : ℕ → R) (g : List Member)
    (t : ℕ) : R :=
  let nu := (uniqueStatuses g t).length
  if 1 < nu then (g.map (memberSignal mult nu t)).sum / (g.length : R) else 0

/-- `_compute_assortativity_score` from `src/randomgroups/algorithm.py`,
accumulated over all groups and all `d` status dimensions. -/
def compute_assortativity_score {R : Type} [Field R] (d : ℕ) (mult : ℕ → R)
    (matching : List (List Member)) : R :=
  (matching.map
    (fun g => ((List.range d).map (fun t => groupStatusScore mult g t)).sum)).sum

theorem sum_map_filter_of_zero {R : Type} [AddCommMonoid R] {α : Type}
    (l : List α) (f : α → R) (p : α → Bool)
    (h : ∀ a ∈ l, p a = false → f a = 0) :
    (l.map f).sum = ((l.filter p).map f).sum := by
  induction l with
  | nil => simp
  | cons a t ih =>
    have hihyp : ∀ b ∈ t, p b = false → f b = 0 :=
      fun b hb => h b (List.mem_cons_of_mem a hb)
    rcases hb : p a with hfalse | htrue
    · rw [List.map_cons, List.sum_cons, h a (List.mem_cons_self a t) hb,
        List.filter_cons_of_neg (by simp [hb]), ih hihyp, zero_add]
    · rw [List.map_cons, List.sum_cons, List.filter_cons_of_pos (by simp [hb]),
        List.map_cons, List.sum_cons, ih hihyp]

/-- C8: the assortativity score adds, for every group and configured status
dimension with more than one distinct status value present, the mean over
group members of `(1 - wants_mixing) * mixing_multiplier * n_distinct`; a
member with `wants_mixing = 1` contributes exactly zero to this signal
regardless of the multiplier, so dropping all such members from the summed
signal leaves every group term unchanged. -/
theorem assortativity_mean_and_mixing_zero {R : Type} [Field R]
    (d : ℕ) (mult : ℕ → R) (matching : List (List Member)) :
    compute_assortativity_score d mult matching
        = (matching.map (fun g => ((List.range d).map (fun t =>
            if 1 < (uniqueStatuses g t).length
            then (g.map (fun m => ((1 - m.wants_mixing : ℤ) : R)
                    * (mult t * ((uniqueStatuses g t).length : R)))).sum
                  / (g.length : R)
            else 0)).sum)).sum
      ∧ (∀ (g : List Member) (t : ℕ) (m : Member), m.wants_mixing = 1 →
          memberSignal mult ((uniqueStatuses g t).length) t m = 0)
      ∧ (∀ (g : List Member) (t : ℕ),
          groupStatusScore mult g t
            = if 1 < (uniqueStatuses g t).length
              then ((g.filter (fun m => decide (m.wants_mixing ≠ 1))).map
                      (memberSignal mult ((uniqueStatuses g t).length) t)).sum
                    / (g.length : R)
              else 0) := by
  refine ⟨rfl, ?_, ?_⟩
  · intro g t m hm
    unfold memberSignal
    rw [hm]
    norm_num
  · intro g t
    unfold groupStatusScore
    by_cases h : 1 < (uniqueStatuses g t).length
    · simp only [h, if_true]
      congr 1
      refine sum_map_filter_of_zero g _ _ ?_
      intro m _ hp
      have hm : m.wants_mixing = 1 := by
        by_contra hcon
        simp [hcon] at hp
      unfold memberSignal
      rw [hm]
      norm_num
    · simp only [h, if_false]

/-- Witness for C8: a mixing-wanting member contributes zero even under a
negative multiplier. -/
theorem assortativity_mean_and_mixing_zero_witness :
    (Member.mk 1 (fun _ => none)).wants_mixing = 1
      ∧ memberSignal (fun _ => (-5 : ℚ))
          ((uniqueStatuses [] 0).length) 0 (Member.mk 1 (fun _ => none)) = 0 :=
  ⟨rfl,
    (assortativity_mean_and_mixing_zero 1 (fun _ => (-5 : ℚ)) []).2.1
      [] 0 (Member.mk 1 (fun _ => none)) rfl⟩

/-- `update_min_size_using_n_groups` from `src/randomgroups/algorithm.py`:
derive the effective minimum group size from the requested number of groups,
failing when the caller-supplied `min_size` cannot be honoured. -/
def update_min_size_using_n_groups (min_size n_groups n_participants : ℕ) :
    Except String ℕ :=
  let updated_min_size := n_participants / n_groups
  if min_size > updated_min_size then
    Except.error "There are not enough participants"
  else
    Except.ok updated_min_size

/-- C9: with `n_groups ≥ 1`, the adjuster returns exactly
`⌊n_participants / n_groups⌋`, and it fails if and only if the caller-supplied
`min_size` exceeds that derived value. -/
theorem min_size_adjuster_floor_and_error (min_size n_groups n_participants : ℕ)
    (h : 1 ≤ n_groups) :
    (∀ v, update_min_size_using_n_groups min_size n_groups n_participants
          = Except.ok v → v = n_participants / n_groups)
      ∧ ((∃ e, update_min_size_using_n_groups min_size n_groups n_participants
            = Except.error e)
          ↔ n_participants / n_groups < min_size) := by
  unfold update_min_size_using_n_groups
  by_cases hgt : min_size > n_participants / n_groups
  · rw [if_pos hgt]
    constructor
    · intro v hv
      cases hv
    · constructor
      · intro _
        exact hgt
      · intro _
        exact ⟨"There are not enough participants", rfl⟩
  · rw [if_neg hgt]
    constructor
    · intro v hv
      cases hv
      rfl
    · constructor
      · rintro ⟨e, he⟩
        cases he
      · intro hlt
        exact absurd hlt hgt

/-- Witness for C9 at `min_size = 3`, `n_groups = 2`, `n_participants = 10`. -/
theorem min_size_adjuster_floor_and_error_witness :
    1 ≤ 2
      ∧ ((∀ v, update_min_size_using_n_groups 3 2 10 = Except.ok v → v = 10 / 2)
          ∧ ((∃ e, update_min_size_using_n_groups 3 2 10 = Except.error e)
              ↔ 10 / 2 < 3)) :=
  ⟨by decide, min_size_adjuster_floor_and_error 3 2 10 (by decide)⟩

/-- Insert a position into a sorted position list, placing `x` before `y`
exactly when `x` has a larger key, or an equal key and a larger position
index.  This is the order `Series.sort_values(ascending=False)` produces:
pandas argsorts ascending (stably) and then reverses the indexer, so equal
keys end up in reverse listing order. -/
def insertDescBy (key : ℕ → ℕ) (x : ℕ) : List ℕ → List ℕ
  | [] => [x]
  | y :: ys =>
      if key y < key x ∨ (key y = key x ∧ y < x) then x :: y :: ys
      else y :: insertDescBy key x ys

/-- Positions `0, …, n-1` sorted by descending key, equal keys in descending
position order (the reverse of a stable ascending argsort). -/
def sortIdxDesc (key : ℕ → ℕ) (n : ℕ) : List ℕ :=
  (List.range n).foldr (insertDescBy key) []

/-- `matchings_history.sum(axis=0)` for one column label `i`: the sum of the
column of `H` at `i` over all row labels of the history. -/
def colSums (histIds : List ℕ) (H : ℕ → ℕ → ℕ) (i : ℕ) : ℕ :=
  (histIds.map (fun r => H r i)).sum

/-- `_exclude_participants_with_most_matchings` from
`src/randomgroups/create_matching.py`: sort the participants' total match
counts descending, drop the first `n_to_exclude` labels and keep the rest (in
sorted order, as `participants.loc[to_include]` does). -/
def exclude_participants_with_most_matchings (pids histIds : List ℕ)
    (H : ℕ → ℕ → ℕ) (n_to_exclude : ℕ) : List ℕ :=
  if 0 < n_to_exclude then
    let match_counts := pids.map (colSums histIds H)
    let ord := sortIdxDesc (fun i => match_counts.getD i 0) pids.length
    (ord.drop n_to_exclude).map (fun i => pids.getD i 0)
  else pids

/-- `get_number_of_excluded_participants` from
`src/randomgroups/algorithm.py`. -/
def get_number_of_excluded_participants (min_size max_size : ℕ)
    (n_groups : Option ℕ) (n_participants : ℕ) : ℕ × Bool :=
  match n_groups with
  | some ng =>
      let n_to_exclude := n_participants - ng * max_size
      (n_to_exclude, decide (0 < n_to_exclude))
  | none =>
      if max_size = min_size then (n_participants % max_size, false)
      else (0, false)

/-- The history matrix used by the repository's own exclusion test:
ids `1, 2, 3` with `H[1,2] = 1`, `H[1,3] = H[2,3] = 2`, symmetric, zero
diagonal. -/
def testHistory : ℕ → ℕ → ℕ :=
  fun r c =>
    if (r = 1 ∧ c = 2) ∨ (r = 2 ∧ c = 1) then 1
    else if (r = 1 ∧ c = 3) ∨ (r = 3 ∧ c = 1) then 2
    else if (r = 2 ∧ c = 3) ∨ (r = 3 ∧ c = 2) then 2
    else 0

/-- C7 (code evaluation): with `max_size = min_size = 2`, `n_groups = None`
and 5 participants the code excludes `5 % 2 = 1` participant, as the claim
says; but on an all-zero history (all match totals tied) the excluded
participant is the LAST-listed id 5, not the first-listed id 1 demanded by
the claim's tie-break, and on the repository's own test history the included
participants come back as `[2, 1]` where the test asserts `[1, 2]`. -/
theorem exclusion_tie_break_eval :
    get_number_of_excluded_participants 2 2 none 5 = (1, false)
      ∧ exclude_participants_with_most_matchings [1, 2, 3, 4, 5] [1, 2, 3, 4, 5]
          (fun _ _ => 0) 1 = [4, 3, 2, 1]
      ∧ (1 : ℕ) ∈ exclude_participants_with_most_matchings [1, 2, 3, 4, 5]
          [1, 2, 3, 4, 5] (fun _ _ => 0) 1
      ∧ (5 : ℕ) ∉ exclude_participants_with_most_matchings [1, 2, 3, 4, 5]
          [1, 2, 3, 4, 5] (fun _ _ => 0) 1
      ∧ exclude_participants_with_most_matchings [1, 2, 3] [1, 2, 3]
          testHistory 1 = [2, 1]
      ∧ exclude_participants_with_most_matchings [1, 2, 3] [1, 2, 3]
          testHistory 1 ≠ [1, 2] := by
  refine ⟨by decide, by decide, by decide, by decide, by decide, by decide⟩

/-- A square labeled matrix: an index (list of identity labels, one per
position) together with positional values. -/
structure LabeledMatrix where
  idx : List ℕ
  val : ℕ → ℕ → ℕ

/-- `df.loc[a, b]`: look the two labels up in the index and read the
positional cell. -/
def locEntry (D : LabeledMatrix) (a b : ℕ) : ℕ :=
  D.val (D.idx.indexOf a) (D.idx.indexOf b)

/-- Ascending insertion sort (used to model the sorted output of
`np.setdiff1d`). -/
def insertAsc (x : ℕ) : List ℕ → List ℕ
  | [] => [x]
  | y :: ys => if x ≤ y then x :: y :: ys else y :: insertAsc x ys

def sortAsc (l : List ℕ) : List ℕ := l.foldr insertAsc []

/-- `np.setdiff1d(xs, ys)`: the sorted unique values of `xs` not in `ys`. -/
def setdiff1d (xs ys : List ℕ) : List ℕ :=
  sortAsc ((xs.filter (fun x => decide (x ∉ ys))).dedup)

/-- `_add_new_individuals` from `src/randomgroups/create_matching.py`: when
there are new ids, build a zero matrix, copy the old block into the top-left
corner, and label BOTH axes with the names-file id order. -/
def add_new_individuals (hist : LabeledMatrix) (names_id : List ℕ) :
    LabeledMatrix :=
  let new_ids := setdiff1d names_id hist.idx
  let n_old := hist.idx.length
  if new_ids.length = 0 then hist
  else
    { idx := names_id,
      val := fun i j => if i < n_old ∧ j < n_old then hist.val i j else 0 }

/-- A history over ids `[1, 2, 3]` whose only nonzero entries record that
ids 1 and 2 met 7 times (positions 0 and 1). -/
def scrambleHistory : LabeledMatrix :=
  { idx := [1, 2, 3],
    val := fun i j => if (i = 0 ∧ j = 1) ∨ (i = 1 ∧ j = 0) then 7 else 0 }

/-- C6 (code evaluation): extending `scrambleHistory` with the names-file id
order `[2, 3, 1, 4]` (same three old ids, listed in a different order, plus
the new id 4) relabels the old block by the names order: the entry for the
pre-existing pair `(2, 3)` becomes 7 although it was 0 in the input, and the
pre-existing pair `(1, 2)` loses its recorded 7.  The claim requires all
pre-existing pairs to keep their exact values. -/
theorem extend_scrambles_existing_pairs :
    locEntry scrambleHistory 2 3 = 0
      ∧ locEntry scrambleHistory 1 2 = 7
      ∧ locEntry (add_new_individuals scrambleHistory [2, 3, 1, 4]) 2 3 = 7
      ∧ locEntry (add_new_individuals scrambleHistory [2, 3, 1, 4]) 1 2 = 0
      ∧ locEntry (add_new_individuals scrambleHistory [2, 3, 1, 4]) 2 3
          ≠ locEntry scrambleHistory 2 3 := by
  refine ⟨by decide, by decide, by decide, by decide, by decide⟩

/-- The score `find_optimal_matching` computes for one candidate: history
score of the folded-in history, plus the assortativity score when enabled. -/
def scoreOf {R : Type} [LinearOrderedField R] (nIds : ℕ) (hist : ℕ → ℕ → ℕ)
    (p : ℕ → R) (d : ℕ) (mult : ℕ → R) (memberOf : ℕ → Member) (assort : Bool)
    (m : List (List ℕ)) : R :=
  let updated := update_matchings_history hist m
  let s := compute_history_score nIds updated p
  if assort then
    s + compute_assortativity_score d mult (m.map (fun g => g.map memberOf))
  else s

/-- `find_optimal_matching` from `src/randomgroups/algorithm.py`: evaluate
every candidate's criterion and return the candidate at the first index of
the minimum (`np.argmin`). -/
def find_optimal_matching {R : Type} [LinearOrderedField R]
    (candidates : List (List (List ℕ))) (nIds : ℕ) (hist : ℕ → ℕ → ℕ)
    (p : ℕ → R) (d : ℕ) (mult : ℕ → R) (memberOf : ℕ → Member)
    (assort : Bool) : List (List ℕ) :=
  candidates.getD
    (argminList (candidates.map (scoreOf nIds hist p d mult memberOf assort))) []

/-- The core selection pipeline of `create_matching` from
`src/randomgroups/create_matching.py`: construct the generator from the seed
(`np.random.default_rng(seed)` is modelled by the abstract family `G`, which
maps a seed to the stream of shuffles the stateful generator performs), draw
the candidates, pick the optimum and fold it into the history.  Returns the
best matching together with the updated history. -/
def create_matching_core {R : Type} [LinearOrderedField R]
    (G : ℕ → ℕ → List ℕ → List ℕ) (seed : ℕ) (pids : List ℕ) (nIds : ℕ)
    (hist : ℕ → ℕ → ℕ) (min_size n_draws : ℕ) (p : ℕ → R) (d : ℕ)
    (mult : ℕ → R) (memberOf : ℕ → Member) (assort : Bool) :
    List (List ℕ) × (ℕ → ℕ → ℕ) :=
  let candidates := draw_candidate_matchings pids min_size n_draws (G seed)
  let best := find_optimal_matching candidates nIds hist p d mult memberOf assort
  (best, update_matchings_history hist best)

/-- C4: the full selection pipeline is deterministic: all randomness enters
through the externally supplied seed, so two runs with the same generator
family, equal seeds and equal inputs (the histories need only agree
pointwise) return the same best partition and the same updated history
matrix (again compared pointwise). -/
theorem pipeline_deterministic {R : Type} [LinearOrderedField R]
    (G : ℕ → ℕ → List ℕ → List ℕ) (s1 s2 : ℕ) (pids : List ℕ) (nIds : ℕ)
    (h1 h2 : ℕ → ℕ → ℕ) (min_size n_draws : ℕ) (p : ℕ → R) (d : ℕ)
    (mult : ℕ → R) (memberOf : ℕ → Member) (assort : Bool)
    (hseed : s1 = s2) (hhist : ∀ i j, h1 i j = h2 i j) :
    (create_matching_core G s1 pids nIds h1 min_size n_draws p d mult
        memberOf assort).1
      = (create_matching_core G s2 pids nIds h2 min_size n_draws p d mult
          memberOf assort).1
    ∧ ∀ i j,
      (create_matching_core G s1 pids nIds h1 min_size n_draws p d mult
          memberOf assort).2 i j
        = (create_matching_core G s2 pids nIds h2 min_size n_draws p d mult
            memberOf assort).2 i j := by
  subst hseed
  have hfun : h1 = h2 := funext (fun i => funext (fun j => hhist i j))
  subst hfun
  exact ⟨rfl, fun i j => rfl⟩

/-- Witness for C4 at a concrete seed, participant list and history. -/
theorem pipeline_deterministic_witness :
    ((12345 : ℕ) = 12345 ∧ (∀ i j : ℕ, (fun (_ _ : ℕ) => 0) i j
        = (fun (_ _ : ℕ) => 0) i j))
      ∧ ((create_matching_core (R := ℚ) (fun _ _ l => l) 12345 [0, 1] 2
            (fun _ _ => 0) 1 3 (fun v => (v : ℚ)) 0 (fun _ => 0)
            (fun _ => Member.mk 0 (fun _ => none)) false).1
          = (create_matching_core (R := ℚ) (fun _ _ l => l) 12345 [0, 1] 2
              (fun _ _ => 0) 1 3 (fun v => (v : ℚ)) 0 (fun _ => 0)
              (fun _ => Member.mk 0 (fun _ => none)) false).1
        ∧ ∀ i j,
          (create_matching_core (R := ℚ) (fun _ _ l => l) 12345 [0, 1] 2
              (fun _ _ => 0) 1 3 (fun v => (v : ℚ)) 0 (fun _ => 0)
              (fun _ => Member.mk 0 (fun _ => none)) false).2 i j
            = (create_matching_core (R := ℚ) (fun _ _ l => l) 12345 [0, 1] 2
                (fun _ _ => 0) 1 3 (fun v => (v : ℚ)) 0 (fun _ => 0)
                (fun _ => Member.mk 0 (fun _ => none)) false).2 i j) :=
  ⟨⟨rfl, fun _ _ => rfl⟩,
    pipeline_deterministic (fun _ _ l => l) 12345 12345 [0, 1] 2
      (fun _ _ => 0) (fun _ _ => 0) 1 3 (fun v => (v : ℚ)) 0 (fun _ => 0)
      (fun _ => Member.mk 0 (fun _ => none)) false rfl (fun _ _ => rfl)⟩
